import Mathlib

/-!
Shallow embedding of the two Verilator testbench drivers of the repository
TomerHabany/Chip_design_journey.

* Variant A, from src/P_S_FIFO/dv/tb_fifo.cpp : self-clocked model.  The
  driver loop is
  `while (!contextp->gotFinish()) { contextp->timeInc(1); top->eval(); tfp->dump(contextp->time()); }`
  preceded by context creation / commandArgs, model construction,
  `Verilated::traceEverOn(true)`, `top->trace(tfp, 99)`, `tfp->open(...)`,
  and followed by `tfp->close()` and two status prints, `return 0`.

* Variant B, from src/hello_verilator/dv/sim_main.cpp : externally toggled
  clock, dual termination.  The driver loop is
  `int time = 0; while (!Verilated::gotFinish() && time < 1000) { top->clk = !top->clk; top->eval(); tfp->dump(time); time++; }`
  preceded by `Verilated::commandArgs`, model construction,
  `Verilated::traceEverOn(true)`, `top->trace(tfp, 99)`, `tfp->open(...)`,
  and followed by `tfp->close()`, `delete top`, a print of the final time,
  `return 0`.

The opaque compiled model is represented by its only effect observable to
the driver: the value of the finish flag (`gotFinish`) after `k` calls to
`eval`, a function `fin : Nat → Bool` (`fin 0` is the flag's value before
any evaluation).  `eval` never writes the driver-owned input `clk`.  Every
interaction of the driver with its collaborators (argument forwarding,
model construction, trace enabling, trace binding, file open, clock
toggles, evaluations, timestamped dumps, close, prints) is recorded in
order as an explicit event trace.  The loops are embedded with an explicit
fuel argument so that every definition is executable; theorems about
complete runs either hold for every fuel or assume the fuel is at least
the number of iterations the C++ loop actually performs.
-/

/-- One observable action of a driver run, in program order. -/
inductive Event where
  /-- forwarding of command line arguments to the context -/
  | cmdArgs : Event
  /-- construction of the device-under-test model instance -/
  | construct : Event
  /-- the global trace-enable switch `Verilated::traceEverOn(true)` -/
  | traceOn : Event
  /-- binding the recorder to the model, `top->trace(tfp, 99)` -/
  | bindTrace : Event
  /-- opening the waveform file, `tfp->open(...)` -/
  | openFile : Event
  /-- assignment of the value `v` to the model's clock input -/
  | toggle (v : Bool) : Event
  /-- one call of the model's `eval()` -/
  | evalStep : Event
  /-- one recorder dump request at time `t`, `tfp->dump(t)` -/
  | dump (t : Nat) : Event
  /-- closing the waveform file, `tfp->close()` -/
  | close : Event
  /-- a status print carrying no time value -/
  | printMsg : Event
  /-- the Variant B print of the final time value `t` -/
  | printTime (t : Nat) : Event
deriving DecidableEq, Repr

/-- Recognizes dump events. -/
def isDump : Event → Bool
  | .dump _ => true
  | _ => false

/-- Recognizes the close event. -/
def isClose : Event → Bool
  | .close => true
  | _ => false

/-- Recognizes the file-open event. -/
def isOpen : Event → Bool
  | .openFile => true
  | _ => false

/-- Recognizes the model-construction event. -/
def isConstruct : Event → Bool
  | .construct => true
  | _ => false

/-- Recognizes the trace-enable event. -/
def isTraceOn : Event → Bool
  | .traceOn => true
  | _ => false

/-- Recognizes the trace-binding event. -/
def isBind : Event → Bool
  | .bindTrace => true
  | _ => false

/-- Recognizes clock-toggle events. -/
def isToggle : Event → Bool
  | .toggle _ => true
  | _ => false

/-- Recognizes evaluation events. -/
def isEval : Event → Bool
  | .evalStep => true
  | _ => false

/-- The time stamps passed to the recorder's dump operation, in order. -/
def dumpTimes (es : List Event) : List Nat :=
  es.filterMap fun e =>
    match e with
    | .dump t => some t
    | _ => none

/-- The values assigned to the clock input, in order. -/
def toggleVals (es : List Event) : List Bool :=
  es.filterMap fun e =>
    match e with
    | .toggle v => some v
    | _ => none

/-- Number of events of a trace satisfying `p`. -/
def countE (p : Event → Bool) (es : List Event) : Nat :=
  es.countP p

/-- The setup events both drivers perform before their loop, in source
order: argument forwarding, model construction, `traceEverOn`,
`top->trace(tfp, 99)`, `tfp->open(...)`. -/
def setupEvents : List Event :=
  [.cmdArgs, .construct, .traceOn, .bindTrace, .openFile]

/-! ### Variant A : src/P_S_FIFO/dv/tb_fifo.cpp -/

/-- The driver-visible state of a Variant A run: the context's time
counter, the number of `eval` calls made so far, and the event trace. -/
structure StateA where
  time : Nat
  evals : Nat
  events : List Event
deriving DecidableEq, Repr

/-- One iteration of the Variant A loop body:
`contextp->timeInc(1); top->eval(); tfp->dump(contextp->time());`. -/
def stepA (s : StateA) : StateA :=
  { time := s.time + 1
    evals := s.evals + 1
    events := s.events ++ [Event.evalStep, Event.dump (s.time + 1)] }

/-- The state right before the Variant A loop: time 0, no evaluations,
setup events already performed. -/
def initA : StateA :=
  { time := 0, evals := 0, events := setupEvents }

/-- The Variant A loop `while (!contextp->gotFinish()) { ... }`, with
explicit fuel.  `fin k` is the finish flag after `k` evaluations, so the
loop head before iteration `k + 1` reads `fin k`.  Returns `none` when the
fuel runs out before the model signals completion. -/
def loopA (fin : Nat → Bool) : Nat → StateA → Option StateA
  | 0, s => if fin s.evals then some s else none
  | fuel + 1, s => if fin s.evals then some s else loopA fin fuel (stepA s)

/-- A complete Variant A run (when it terminates): setup, loop, then
`tfp->close()` and the two status prints. -/
def programA (fin : Nat → Bool) (fuel : Nat) : Option (List Event) :=
  (loopA fin fuel initA).map fun s =>
    s.events ++ [Event.close, Event.printMsg, Event.printMsg]

/-- The events the Variant A loop appends during its first `n`
iterations. -/
def bodyA : Nat → List Event
  | 0 => []
  | n + 1 => bodyA n ++ [Event.evalStep, Event.dump (n + 1)]

/-- Loop invariant of Variant A: the time counter equals the number of
evaluations, and the trace is the setup followed by the loop body. -/
def InvA (s : StateA) : Prop :=
  s.time = s.evals ∧ s.events = setupEvents ++ bodyA s.evals

theorem invA_init : InvA initA := by
  constructor
  · rfl
  · simp [initA, bodyA]

theorem invA_step {s : StateA} (h : InvA s) : InvA (stepA s) := by
  obtain ⟨ht, he⟩ := h
  refine ⟨by simp [stepA, ht], ?_⟩
  simp [stepA, he, ht, bodyA, List.append_assoc]

theorem invA_loop (fin : Nat → Bool) :
    ∀ fuel s t, loopA fin fuel s = some t → InvA s → InvA t := by
  intro fuel
  induction fuel with
  | zero =>
    intro s t h hs
    unfold loopA at h
    split at h
    · cases h; exact hs
    · cases h
  | succ f ih =>
    intro s t h hs
    unfold loopA at h
    split at h
    · cases h; exact hs
    · exact ih _ _ h (invA_step hs)

/-- When the Variant A loop returns, the finish flag is true at the final
evaluation count: the loop exits only through the model's completion
signal. -/
theorem loopA_some_fin (fin : Nat → Bool) :
    ∀ fuel s t, loopA fin fuel s = some t → fin t.evals = true := by
  intro fuel
  induction fuel with
  | zero =>
    intro s t h
    unfold loopA at h
    split at h
    · cases h; assumption
    · cases h
  | succ f ih =>
    intro s t h
    unfold loopA at h
    split at h
    · cases h; assumption
    · exact ih _ _ h

/-- If the model never raises its finish flag, the Variant A loop never
returns, whatever the fuel. -/
theorem loopA_none (fin : Nat → Bool) (hfin : ∀ k, fin k = false) :
    ∀ fuel s, loopA fin fuel s = none := by
  intro fuel
  induction fuel with
  | zero =>
    intro s
    unfold loopA
    simp [hfin]
  | succ f ih =>
    intro s
    unfold loopA
    simp [hfin, ih]

/-- If the finish flag goes up within the fuel budget, the Variant A loop
returns. -/
theorem loopA_isSome (fin : Nat → Bool) :
    ∀ n fuel s, n ≤ fuel → fin (s.evals + n) = true →
      ∃ t, loopA fin fuel s = some t := by
  intro n
  induction n with
  | zero =>
    intro fuel s _ hf
    cases fuel with
    | zero => exact ⟨s, by unfold loopA; simp at hf; simp [hf]⟩
    | succ f => exact ⟨s, by unfold loopA; simp at hf; simp [hf]⟩
  | succ m ih =>
    intro fuel s hle hf
    cases fuel with
    | zero => omega
    | succ f =>
      by_cases h0 : fin s.evals = true
      · exact ⟨s, by unfold loopA; simp [h0]⟩
      · have : fin ((stepA s).evals + m) = true := by
          simp only [stepA]
          have : s.evals + 1 + m = s.evals + (m + 1) := by omega
          rw [this]
          exact hf
        obtain ⟨t, ht⟩ := ih f (stepA s) (by omega) this
        refine ⟨t, ?_⟩
        unfold loopA
        simp [h0, ht]

/-- The dump times the Variant A body produces: `1, 2, ..., n`. -/
theorem dumpTimes_bodyA (n : Nat) :
    dumpTimes (bodyA n) = (List.range n).map (fun i => i + 1) := by
  induction n with
  | zero => simp [bodyA, dumpTimes]
  | succ m ih =>
    simp only [bodyA, dumpTimes] at ih ⊢
    rw [List.filterMap_append, ih, List.range_succ, List.map_append]
    rfl

theorem dumpTimes_setup : dumpTimes setupEvents = [] := rfl

theorem countE_bodyA_close (n : Nat) : countE isClose (bodyA n) = 0 := by
  induction n with
  | zero => rfl
  | succ m ih =>
    simp only [bodyA, countE] at ih ⊢
    rw [List.countP_append, ih]
    rfl

theorem countE_bodyA_open (n : Nat) : countE isOpen (bodyA n) = 0 := by
  induction n with
  | zero => rfl
  | succ m ih =>
    simp only [bodyA, countE] at ih ⊢
    rw [List.countP_append, ih]
    rfl

theorem countE_bodyA_dump (n : Nat) : countE isDump (bodyA n) = n := by
  induction n with
  | zero => rfl
  | succ m ih =>
    simp only [bodyA, countE] at ih ⊢
    rw [List.countP_append, ih]
    rfl

/-! ### Variant B : src/hello_verilator/dv/sim_main.cpp -/

/-- The externally imposed safety ceiling of the Variant B loop,
`time < 1000` in the source. -/
def timeBound : Nat := 1000

/-- The driver-visible state of a Variant B run: the `time` counter, the
current value of the model's `clk` input, the number of completed loop
iterations (one `eval` each), and the event trace. -/
structure StateB where
  time : Nat
  clk : Bool
  evals : Nat
  events : List Event
deriving DecidableEq, Repr

/-- One iteration of the Variant B loop body:
`top->clk = !top->clk; top->eval(); tfp->dump(time); time++;`.
The dump uses the value of `time` before the increment. -/
def stepB (s : StateB) : StateB :=
  { time := s.time + 1
    clk := !s.clk
    evals := s.evals + 1
    events := s.events ++ [Event.toggle (!s.clk), Event.evalStep, Event.dump s.time] }

/-- The state right before the Variant B loop.  `clk0` is the model's
initial value of the `clk` input (the model is opaque, so it is a
parameter of the run). -/
def initB (clk0 : Bool) : StateB :=
  { time := 0, clk := clk0, evals := 0, events := setupEvents }

/-- The Variant B loop `while (!Verilated::gotFinish() && time < 1000)`,
with explicit fuel.  `fin k` is the finish flag after `k` evaluations. -/
def loopB (fin : Nat → Bool) : Nat → StateB → StateB
  | 0, s => s
  | fuel + 1, s =>
    if fin s.evals = false ∧ s.time < timeBound then loopB fin fuel (stepB s) else s

/-- The final state of a Variant B run. -/
def runB (fin : Nat → Bool) (clk0 : Bool) (fuel : Nat) : StateB :=
  loopB fin fuel (initB clk0)

/-- A complete Variant B run: setup, loop, `tfp->close()`, then the print
of the final value of `time`. -/
def programB (fin : Nat → Bool) (clk0 : Bool) (fuel : Nat) : List Event :=
  (runB fin clk0 fuel).events ++
    [Event.close, Event.printTime (runB fin clk0 fuel).time]

/-- The whole Variant B `main`: its event trace and its exit status,
`return 0`. -/
def mainB (fin : Nat → Bool) (clk0 : Bool) (fuel : Nat) : List Event × Nat :=
  (programB fin clk0 fuel, 0)

/-- The value of the `clk` input after `n` toggles starting from
`clk0`. -/
def clkAfter (clk0 : Bool) (n : Nat) : Bool :=
  if n % 2 = 0 then clk0 else !clk0

theorem clkAfter_succ (clk0 : Bool) (n : Nat) :
    clkAfter clk0 (n + 1) = !(clkAfter clk0 n) := by
  unfold clkAfter
  rcases Nat.mod_two_eq_zero_or_one n with h | h
  · have h1 : (n + 1) % 2 = 1 := by omega
    simp [h, h1]
  · have h1 : (n + 1) % 2 = 0 := by omega
    simp [h, h1]

/-- The events the Variant B loop appends during its first `n`
iterations. -/
def bodyB (clk0 : Bool) : Nat → List Event
  | 0 => []
  | n + 1 => bodyB clk0 n ++
      [Event.toggle (clkAfter clk0 (n + 1)), Event.evalStep, Event.dump n]

/-- Loop invariant of Variant B: `time` counts the iterations, each of
which performed exactly one toggle and one evaluation; `clk` holds the
value after `evals` toggles; the trace is the setup followed by the loop
body. -/
def InvB (clk0 : Bool) (s : StateB) : Prop :=
  s.time = s.evals ∧ s.clk = clkAfter clk0 s.evals ∧
    s.events = setupEvents ++ bodyB clk0 s.evals

theorem invB_init (clk0 : Bool) : InvB clk0 (initB clk0) := by
  refine ⟨rfl, by simp [initB, clkAfter], ?_⟩
  simp [initB, bodyB]

theorem invB_step {clk0 : Bool} {s : StateB} (h : InvB clk0 s) :
    InvB clk0 (stepB s) := by
  obtain ⟨ht, hc, he⟩ := h
  refine ⟨by simp [stepB, ht], ?_, ?_⟩
  · simp [stepB, hc, clkAfter_succ]
  · simp [stepB, he, ht, hc, bodyB, clkAfter_succ, List.append_assoc]

theorem invB_loop (fin : Nat → Bool) (clk0 : Bool) :
    ∀ fuel s, InvB clk0 s → InvB clk0 (loopB fin fuel s) := by
  intro fuel
  induction fuel with
  | zero => intro s hs; exact hs
  | succ f ih =>
    intro s hs
    unfold loopB
    split
    · exact ih _ (invB_step hs)
    · exact hs

theorem invB_runB (fin : Nat → Bool) (clk0 : Bool) (fuel : Nat) :
    InvB clk0 (runB fin clk0 fuel) :=
  invB_loop fin clk0 fuel _ (invB_init clk0)

/-- The Variant B loop never pushes `time` beyond the safety ceiling. -/
theorem loopB_time_le (fin : Nat → Bool) :
    ∀ fuel s, s.time ≤ timeBound → (loopB fin fuel s).time ≤ timeBound := by
  intro fuel
  induction fuel with
  | zero => intro s hs; exact hs
  | succ f ih =>
    intro s hs
    unfold loopB
    split
    · rename_i h
      exact ih (stepB s) (by simp [stepB]; omega)
    · exact hs

/-- If the model never raises its finish flag and there is enough fuel,
the Variant B loop runs until `time` hits the ceiling. -/
theorem loopB_never (fin : Nat → Bool) (hfin : ∀ k, fin k = false) :
    ∀ fuel s, s.time ≤ timeBound → timeBound - s.time ≤ fuel →
      (loopB fin fuel s).time = timeBound := by
  intro fuel
  induction fuel with
  | zero =>
    intro s h1 h2
    unfold loopB
    omega
  | succ f ih =>
    intro s h1 h2
    unfold loopB
    by_cases h : s.time < timeBound
    · rw [if_pos ⟨hfin s.evals, h⟩]
      exact ih (stepB s) (by simp [stepB]; omega) (by simp [stepB]; omega)
    · rw [if_neg (by tauto)]
      omega

/-- If the finish flag first goes up after `n` evaluations with
`n ≤ timeBound` and `n ≤ fuel`, the Variant B loop performs exactly `n`
more iterations.  Stated relative to an arbitrary start state whose time
counter agrees with its evaluation count. -/
theorem loopB_exact (fin : Nat → Bool) :
    ∀ n fuel s, (∀ k, k < n → fin (s.evals + k) = false) →
      fin (s.evals + n) = true → s.time = s.evals →
      s.evals + n ≤ timeBound → n ≤ fuel →
      (loopB fin fuel s).evals = s.evals + n := by
  intro n
  induction n with
  | zero =>
    intro fuel s _ hf _ _ _
    simp only [Nat.add_zero] at hf
    cases fuel with
    | zero => rfl
    | succ f =>
      unfold loopB
      rw [if_neg (by simp [hf])]
      omega
  | succ m ih =>
    intro fuel s hlow hf ht hbound hfuel
    cases fuel with
    | zero => omega
    | succ f =>
      have h0 : fin s.evals = false := by
        have := hlow 0 (by omega)
        simpa using this
      unfold loopB
      rw [if_pos ⟨h0, by omega⟩]
      have hstep : (stepB s).evals = s.evals + 1 := rfl
      have htstep : (stepB s).time = s.time + 1 := rfl
      have hrec := ih f (stepB s)
        (fun k hk => by
          rw [hstep]
          have he : s.evals + 1 + k = s.evals + (k + 1) := by omega
          rw [he]
          exact hlow (k + 1) (by omega))
        (by
          rw [hstep]
          have he : s.evals + 1 + m = s.evals + (m + 1) := by omega
          rw [he]
          exact hf)
        (by rw [hstep, htstep, ht])
        (by rw [hstep]; omega)
        (by omega)
      rw [hrec, hstep]
      omega

/-- The dump times the Variant B body produces: `0, 1, ..., n - 1`. -/
theorem dumpTimes_bodyB (clk0 : Bool) (n : Nat) :
    dumpTimes (bodyB clk0 n) = List.range n := by
  induction n with
  | zero => simp [bodyB, dumpTimes]
  | succ m ih =>
    simp only [bodyB, dumpTimes] at ih ⊢
    rw [List.filterMap_append, ih, List.range_succ]
    rfl

/-- The clock values the Variant B body assigns: iteration `i` (counting
from 0) assigns the value after `i + 1` toggles. -/
theorem toggleVals_bodyB (clk0 : Bool) (n : Nat) :
    toggleVals (bodyB clk0 n) = (List.range n).map (fun i => clkAfter clk0 (i + 1)) := by
  induction n with
  | zero => simp [bodyB, toggleVals]
  | succ m ih =>
    simp only [bodyB, toggleVals] at ih ⊢
    rw [List.filterMap_append, ih, List.range_succ, List.map_append]
    rfl

theorem countE_bodyB_close (clk0 : Bool) (n : Nat) :
    countE isClose (bodyB clk0 n) = 0 := by
  induction n with
  | zero => rfl
  | succ m ih =>
    simp only [bodyB, countE] at ih ⊢
    rw [List.countP_append, ih]
    rfl

theorem countE_bodyB_open (clk0 : Bool) (n : Nat) :
    countE isOpen (bodyB clk0 n) = 0 := by
  induction n with
  | zero => rfl
  | succ m ih =>
    simp only [bodyB, countE] at ih ⊢
    rw [List.countP_append, ih]
    rfl

theorem countE_bodyB_dump (clk0 : Bool) (n : Nat) :
    countE isDump (bodyB clk0 n) = n := by
  induction n with
  | zero => rfl
  | succ m ih =>
    simp only [bodyB, countE] at ih ⊢
    rw [List.countP_append, ih]
    rfl

theorem countE_bodyB_toggle (clk0 : Bool) (n : Nat) :
    countE isToggle (bodyB clk0 n) = n := by
  induction n with
  | zero => rfl
  | succ m ih =>
    simp only [bodyB, countE] at ih ⊢
    rw [List.countP_append, ih]
    rfl

theorem countE_bodyB_eval (clk0 : Bool) (n : Nat) :
    countE isEval (bodyB clk0 n) = n := by
  induction n with
  | zero => rfl
  | succ m ih =>
    simp only [bodyB, countE] at ih ⊢
    rw [List.countP_append, ih]
    rfl

/-! ### Helpers about unique occurrences in traces -/

/-- Splitting a list at an element that occurs only once is unique. -/
theorem split_eq_of_unique {α : Type} {a : α} :
    ∀ {l1 l2 pre post : List α}, l1 ++ a :: l2 = pre ++ a :: post →
      a ∉ l1 → a ∉ pre → l1 = pre ∧ l2 = post := by
  intro l1
  induction l1 with
  | nil =>
    intro l2 pre post h h1 h2
    cases pre with
    | nil => simpa using h
    | cons b pre =>
      simp only [List.nil_append, List.cons_append, List.cons.injEq] at h
      exact absurd (h.1 ▸ List.mem_cons_self b pre) (by simp_all)
  | cons x l1 ih =>
    intro l2 pre post h h1 h2
    cases pre with
    | nil =>
      simp only [List.cons_append, List.nil_append, List.cons.injEq] at h
      exact absurd (h.1 ▸ List.mem_cons_self x l1) (by simp_all)
    | cons b pre =>
      simp only [List.cons_append, List.cons.injEq] at h
      obtain ⟨hx, hrest⟩ := h
      have := ih hrest (by simp_all) (by simp_all)
      exact ⟨by rw [hx, this.1], this.2⟩

/-- In a list where `p` holds exactly once, any split at an element
satisfying `p` has no `p`-element on either side. -/
theorem countP_split {α : Type} {p : α → Bool} {l1 l2 : List α} {a : α}
    (hone : (l1 ++ a :: l2).countP p = 1) (ha : p a = true) :
    l1.countP p = 0 ∧ l2.countP p = 0 := by
  rw [List.countP_append, List.countP_cons, ha] at hone
  simp only [if_true] at hone
  omega

/-! ### Trace-level facts about complete runs -/

theorem dumpTimes_append (l1 l2 : List Event) :
    dumpTimes (l1 ++ l2) = dumpTimes l1 ++ dumpTimes l2 :=
  List.filterMap_append l1 l2 _

theorem toggleVals_append (l1 l2 : List Event) :
    toggleVals (l1 ++ l2) = toggleVals l1 ++ toggleVals l2 :=
  List.filterMap_append l1 l2 _

theorem countE_append (p : Event → Bool) (l1 l2 : List Event) :
    countE p (l1 ++ l2) = countE p l1 + countE p l2 := by
  unfold countE
  rw [List.countP_append]

/-- The Variant B run always ends by printing the final time. -/
theorem programB_getLast (fin : Nat → Bool) (clk0 : Bool) (fuel : Nat) :
    (programB fin clk0 fuel).getLast? =
      some (Event.printTime (runB fin clk0 fuel).time) := by
  unfold programB
  have h : (runB fin clk0 fuel).events ++
      [Event.close, Event.printTime (runB fin clk0 fuel).time] =
      ((runB fin clk0 fuel).events ++ [Event.close]) ++
        [Event.printTime (runB fin clk0 fuel).time] := by
    simp
  rw [h]
  exact List.getLast?_concat _

/-- One clock toggle per iteration of a Variant B run. -/
theorem countE_programB_toggle (fin : Nat → Bool) (clk0 : Bool) (fuel : Nat) :
    countE isToggle (programB fin clk0 fuel) = (runB fin clk0 fuel).evals := by
  obtain ⟨-, -, he⟩ := invB_runB fin clk0 fuel
  unfold programB
  rw [countE_append, he, countE_append, countE_bodyB_toggle]
  have h1 : countE isToggle setupEvents = 0 := rfl
  have h2 : ∀ t, countE isToggle [Event.close, Event.printTime t] = 0 := fun _ => rfl
  rw [h1, h2]
  omega

/-- One evaluation per iteration of a Variant B run. -/
theorem countE_programB_eval (fin : Nat → Bool) (clk0 : Bool) (fuel : Nat) :
    countE isEval (programB fin clk0 fuel) = (runB fin clk0 fuel).evals := by
  obtain ⟨-, -, he⟩ := invB_runB fin clk0 fuel
  unfold programB
  rw [countE_append, he, countE_append, countE_bodyB_eval]
  have h1 : countE isEval setupEvents = 0 := rfl
  have h2 : ∀ t, countE isEval [Event.close, Event.printTime t] = 0 := fun _ => rfl
  rw [h1, h2]
  omega

/-- One dump per iteration of a Variant B run. -/
theorem countE_programB_dump (fin : Nat → Bool) (clk0 : Bool) (fuel : Nat) :
    countE isDump (programB fin clk0 fuel) = (runB fin clk0 fuel).evals := by
  obtain ⟨-, -, he⟩ := invB_runB fin clk0 fuel
  unfold programB
  rw [countE_append, he, countE_append, countE_bodyB_dump]
  have h1 : countE isDump setupEvents = 0 := rfl
  have h2 : ∀ t, countE isDump [Event.close, Event.printTime t] = 0 := fun _ => rfl
  rw [h1, h2]
  omega

/-- The dump times of a complete Variant B run are `0, ..., n - 1`. -/
theorem dumpTimes_programB (fin : Nat → Bool) (clk0 : Bool) (fuel : Nat) :
    dumpTimes (programB fin clk0 fuel) = List.range (runB fin clk0 fuel).evals := by
  obtain ⟨-, -, he⟩ := invB_runB fin clk0 fuel
  unfold programB
  rw [dumpTimes_append, he, dumpTimes_append, dumpTimes_bodyB]
  have h1 : dumpTimes setupEvents = [] := rfl
  have h2 : ∀ t, dumpTimes [Event.close, Event.printTime t] = [] := fun _ => rfl
  rw [h1, h2]
  simp

/-- The clock values assigned during a complete Variant B run. -/
theorem toggleVals_programB (fin : Nat → Bool) (clk0 : Bool) (fuel : Nat) :
    toggleVals (programB fin clk0 fuel) =
      (List.range (runB fin clk0 fuel).evals).map (fun i => clkAfter clk0 (i + 1)) := by
  obtain ⟨-, -, he⟩ := invB_runB fin clk0 fuel
  unfold programB
  rw [toggleVals_append, he, toggleVals_append, toggleVals_bodyB]
  have h1 : toggleVals setupEvents = [] := rfl
  have h2 : ∀ t, toggleVals [Event.close, Event.printTime t] = [] := fun _ => rfl
  rw [h1, h2]
  simp

/-- The shape of every terminating Variant A run: setup, then the loop
body of some number of iterations, then close and two prints. -/
theorem programA_shape (fin : Nat → Bool) (fuel : Nat) (es : List Event)
    (h : programA fin fuel = some es) :
    ∃ n, es = setupEvents ++ bodyA n ++ [Event.close, Event.printMsg, Event.printMsg] := by
  unfold programA at h
  cases hl : loopA fin fuel initA with
  | none => rw [hl] at h; cases h
  | some t =>
    rw [hl] at h
    have h3 : t.events ++ [Event.close, Event.printMsg, Event.printMsg] = es :=
      Option.some.inj h
    obtain ⟨-, he⟩ := invA_loop fin fuel initA t hl invA_init
    refine ⟨t.evals, ?_⟩
    rw [← h3, he, List.append_assoc]

/-- The shape of every Variant B run: setup, then the loop body of some
number of iterations, then close and the final-time print. -/
theorem programB_shape (fin : Nat → Bool) (clk0 : Bool) (fuel : Nat) :
    programB fin clk0 fuel = setupEvents ++ bodyB clk0 (runB fin clk0 fuel).evals ++
      [Event.close, Event.printTime (runB fin clk0 fuel).time] := by
  obtain ⟨-, -, he⟩ := invB_runB fin clk0 fuel
  unfold programB
  rw [he, List.append_assoc]

/-! ### Event ordering within a trace -/

/-- Index of the first event satisfying `p`, if any. -/
def firstIdx (p : Event → Bool) : List Event → Option Nat
  | [] => none
  | e :: es => if p e then some 0 else (firstIdx p es).map (fun i => i + 1)

/-- `occursBefore p q es` holds when both a `p`-event and a `q`-event
occur in `es` and the first `p`-event strictly precedes the first
`q`-event. -/
def occursBefore (p q : Event → Bool) (es : List Event) : Bool :=
  match firstIdx p es, firstIdx q es with
  | some i, some j => decide (i < j)
  | _, _ => false

/-- A first occurrence in a prefix is a first occurrence in the whole
trace. -/
theorem firstIdx_append_left (p : Event → Bool) :
    ∀ (l1 l2 : List Event) (i : Nat), firstIdx p l1 = some i →
      firstIdx p (l1 ++ l2) = some i := by
  intro l1
  induction l1 with
  | nil => intro l2 i h; cases h
  | cons e es ih =>
    intro l2 i h
    rw [List.cons_append]
    unfold firstIdx at h ⊢
    by_cases hp : p e = true
    · rw [if_pos hp] at h ⊢
      exact h
    · rw [if_neg hp] at h ⊢
      cases hf : firstIdx p es with
      | none => rw [hf] at h; cases h
      | some j =>
        rw [hf] at h
        rw [ih l2 j hf]
        exact h

/-- Ordering between two events that both occur in a common prefix
transfers to the full trace. -/
theorem occursBefore_append (p q : Event → Bool) (l1 l2 : List Event)
    (i j : Nat) (hp : firstIdx p l1 = some i) (hq : firstIdx q l1 = some j)
    (hij : i < j) : occursBefore p q (l1 ++ l2) = true := by
  unfold occursBefore
  rw [firstIdx_append_left p l1 l2 i hp, firstIdx_append_left q l1 l2 j hq]
  simpa using hij

/-! ### Claims -/

/-- Claim C1: in every terminating run of Variant A (tb_fifo) the
sequence of time values passed to the recorder's dump operation is
exactly `1, 2, ..., n` — iteration `k` increments the context time to `k`
and then dumps at time `k` — hence it is strictly increasing and starts
at 1. -/
theorem claimC1_variantA_dumps_increasing_from_one
    (fin : Nat → Bool) (fuel : Nat) (t : StateA)
    (h : loopA fin fuel initA = some t) :
    dumpTimes t.events = (List.range t.evals).map (fun i => i + 1) ∧
    List.Pairwise (· < ·) (dumpTimes t.events) ∧
    (dumpTimes t.events).head? = (if 0 < t.evals then some 1 else none) := by
  obtain ⟨-, he⟩ := invA_loop fin fuel initA t h invA_init
  have hd : dumpTimes t.events = (List.range t.evals).map (fun i => i + 1) := by
    rw [he, dumpTimes_append, dumpTimes_setup, dumpTimes_bodyA, List.nil_append]
  refine ⟨hd, ?_, ?_⟩
  · rw [hd]
    exact (List.pairwise_lt_range _).map _ (fun a b hab => by omega)
  · rw [hd]
    cases hn : t.evals with
    | zero => simp
    | succ m =>
      rw [List.range_succ_eq_map]
      simp

/-- Witness for C1: a model whose finish flag first rises after two
evaluations gives the dump sequence `[1, 2]`. -/
theorem claimC1_witness :
    loopA (fun k => decide (2 ≤ k)) 5 initA =
      some { time := 2, evals := 2,
             events := setupEvents ++ [Event.evalStep, Event.dump 1, Event.evalStep, Event.dump 2] } ∧
    (dumpTimes (setupEvents ++ [Event.evalStep, Event.dump 1, Event.evalStep, Event.dump 2]) =
        (List.range 2).map (fun i => i + 1) ∧
      List.Pairwise (· < ·) (dumpTimes (setupEvents ++ [Event.evalStep, Event.dump 1, Event.evalStep, Event.dump 2])) ∧
      (dumpTimes (setupEvents ++ [Event.evalStep, Event.dump 1, Event.evalStep, Event.dump 2])).head? =
        (if 0 < 2 then some 1 else none)) :=
  ⟨by decide,
    claimC1_variantA_dumps_increasing_from_one (fun k => decide (2 ≤ k)) 5
      { time := 2, evals := 2,
        events := setupEvents ++ [Event.evalStep, Event.dump 1, Event.evalStep, Event.dump 2] }
      (by decide)⟩

/-- Claim C6: the only way the Variant A driver loop terminates is the
model's completion flag becoming true — a run that returns did observe a
true flag, and if the model never raises the flag the loop never
completes, no matter how much fuel it is given. -/
theorem claimC6_variantA_terminates_only_by_finish (fin : Nat → Bool) :
    ((∀ k, fin k = false) → ∀ fuel, loopA fin fuel initA = none) ∧
    (∀ fuel t, loopA fin fuel initA = some t → fin t.evals = true) :=
  ⟨fun h fuel => loopA_none fin h fuel initA,
   fun fuel t h => loopA_some_fin fin fuel initA t h⟩

/-- Witness for C6: with an always-false finish flag the loop is still
running after 7 iterations of fuel. -/
theorem claimC6_witness :
    (∀ k, (fun _ : Nat => false) k = false) ∧
    loopA (fun _ : Nat => false) 7 initA = none :=
  ⟨fun _ => rfl,
    (claimC6_variantA_terminates_only_by_finish (fun _ : Nat => false)).1 (fun _ => rfl) 7⟩

/-- Claim C2: every Variant B (sim_main) run performs at most
`timeBound = 1000` loop iterations and its final reported time never
exceeds 1000; if the model never raises its completion flag (and the
fuel covers the ceiling) the loop runs exactly 1000 iterations, the time
counter reaches 1000, the clock is toggled 1000 times, and the printed
final time is 1000. -/
theorem claimC2_variantB_bounded_and_exhausts_bound
    (fin : Nat → Bool) (clk0 : Bool) (fuel : Nat) :
    (runB fin clk0 fuel).evals ≤ timeBound ∧
    (runB fin clk0 fuel).time ≤ timeBound ∧
    ((∀ k, fin k = false) → timeBound ≤ fuel →
      (runB fin clk0 fuel).evals = timeBound ∧
      (runB fin clk0 fuel).time = timeBound ∧
      countE isToggle (programB fin clk0 fuel) = timeBound ∧
      (programB fin clk0 fuel).getLast? = some (Event.printTime timeBound)) := by
  have hti := (invB_runB fin clk0 fuel).1
  have hle : (runB fin clk0 fuel).time ≤ timeBound :=
    loopB_time_le fin fuel (initB clk0) (Nat.zero_le _)
  refine ⟨by omega, hle, ?_⟩
  intro hfin hfuel
  have hexact : (runB fin clk0 fuel).time = timeBound :=
    loopB_never fin hfin fuel (initB clk0) (Nat.zero_le _) (by simp [initB]; omega)
  refine ⟨by omega, hexact, ?_, ?_⟩
  · rw [countE_programB_toggle]
    omega
  · rw [programB_getLast, hexact]

/-- Witness for C2: the always-false finish flag with fuel 1000. -/
theorem claimC2_witness :
    (∀ k, (fun _ : Nat => false) k = false) ∧ timeBound ≤ 1000 ∧
    ((runB (fun _ : Nat => false) false 1000).evals = timeBound ∧
     (runB (fun _ : Nat => false) false 1000).time = timeBound ∧
     countE isToggle (programB (fun _ : Nat => false) false 1000) = timeBound ∧
     (programB (fun _ : Nat => false) false 1000).getLast? = some (Event.printTime timeBound)) :=
  ⟨fun _ => rfl, by decide,
    (claimC2_variantB_bounded_and_exhausts_bound (fun _ : Nat => false) false 1000).2.2
      (fun _ => rfl) (by decide)⟩

/-- Claim C3: in every Variant B run the values assigned to the
externally driven clock input strictly alternate — consecutive
assignments are never equal. -/
theorem claimC3_variantB_clock_alternates
    (fin : Nat → Bool) (clk0 : Bool) (fuel : Nat) :
    List.Chain' (fun a b => a ≠ b) (toggleVals (programB fin clk0 fuel)) := by
  rw [toggleVals_programB]
  rw [List.chain'_map]
  cases hn : (runB fin clk0 fuel).evals with
  | zero => simp
  | succ m =>
    rw [List.chain'_range_succ]
    intro i _
    rw [clkAfter_succ clk0 (i + 1)]
    cases clkAfter clk0 (i + 1) <;> simp

/-- Claim C4: if the model first raises its completion flag during the
evaluation of iteration 42 (so the flag is false after 0..41 evaluations
and true after 42), a Variant B run with enough fuel exits after exactly
42 iterations, has toggled the clock exactly 42 times, and prints final
time 42. -/
theorem claimC4_variantB_finish_at_42
    (fin : Nat → Bool) (clk0 : Bool) (fuel : Nat)
    (h1 : ∀ k, k < 42 → fin k = false) (h2 : fin 42 = true)
    (hfuel : 42 ≤ fuel) :
    (runB fin clk0 fuel).evals = 42 ∧
    (runB fin clk0 fuel).time = 42 ∧
    countE isToggle (programB fin clk0 fuel) = 42 ∧
    (programB fin clk0 fuel).getLast? = some (Event.printTime 42) := by
  have he : (runB fin clk0 fuel).evals = 42 := by
    have h := loopB_exact fin 42 fuel (initB clk0)
      (fun k hk => by
        have hz : (initB clk0).evals + k = k := Nat.zero_add k
        rw [hz]
        exact h1 k hk)
      (by
        have hz : (initB clk0).evals + 42 = 42 := Nat.zero_add 42
        rw [hz]
        exact h2)
      rfl (by simp [initB, timeBound]) hfuel
    simpa [runB] using h
  have hti := (invB_runB fin clk0 fuel).1
  refine ⟨he, by omega, ?_, ?_⟩
  · rw [countE_programB_toggle]
    exact he
  · rw [programB_getLast]
    rw [show (runB fin clk0 fuel).time = 42 by omega]

/-- Witness for C4: the flag that rises exactly at the 42nd
evaluation. -/
theorem claimC4_witness :
    (∀ k, k < 42 → (fun j => decide (42 ≤ j)) k = false) ∧
    ((fun j => decide (42 ≤ j)) 42 = true) ∧ 42 ≤ 50 ∧
    ((runB (fun j => decide (42 ≤ j)) false 50).evals = 42 ∧
     (runB (fun j => decide (42 ≤ j)) false 50).time = 42 ∧
     countE isToggle (programB (fun j => decide (42 ≤ j)) false 50) = 42 ∧
     (programB (fun j => decide (42 ≤ j)) false 50).getLast? = some (Event.printTime 42)) :=
  ⟨by decide, by decide, by decide,
    claimC4_variantB_finish_at_42 (fun j => decide (42 ≤ j)) false 50
      (by decide) (by decide) (by decide)⟩

/-- Claim C9: a Variant B run that performs `n` loop iterations dumps at
times exactly `0, 1, ..., n - 1` — the first dump is at time 0, before
the counter is incremented — and the printed final time `n` equals both
the number of dump calls and the number of clock toggles. -/
theorem claimC9_variantB_dumps_from_zero
    (fin : Nat → Bool) (clk0 : Bool) (fuel : Nat) :
    dumpTimes (programB fin clk0 fuel) = List.range (runB fin clk0 fuel).evals ∧
    (dumpTimes (programB fin clk0 fuel)).head? =
      (if 0 < (runB fin clk0 fuel).evals then some 0 else none) ∧
    (runB fin clk0 fuel).time = (dumpTimes (programB fin clk0 fuel)).length ∧
    (runB fin clk0 fuel).time = countE isToggle (programB fin clk0 fuel) ∧
    (programB fin clk0 fuel).getLast? =
      some (Event.printTime (runB fin clk0 fuel).time) := by
  have hti := (invB_runB fin clk0 fuel).1
  have hd := dumpTimes_programB fin clk0 fuel
  refine ⟨hd, ?_, ?_, ?_, programB_getLast fin clk0 fuel⟩
  · rw [hd]
    cases hn : (runB fin clk0 fuel).evals with
    | zero => simp
    | succ m =>
      rw [List.range_succ_eq_map]
      simp
  · rw [hd, List.length_range]
    exact hti
  · rw [countE_programB_toggle]
    exact hti

/-- Claim C10: if the model's completion flag is already true before the
first Variant B iteration, the loop body never runs — no toggle, no
evaluation, no dump — yet the file is opened once and closed once, the
printed final time is 0, and the process exit status is 0. -/
theorem claimC10_variantB_zero_iterations
    (fin : Nat → Bool) (clk0 : Bool) (fuel : Nat) (h : fin 0 = true) :
    runB fin clk0 fuel = initB clk0 ∧
    programB fin clk0 fuel = setupEvents ++ [Event.close, Event.printTime 0] ∧
    countE isToggle (programB fin clk0 fuel) = 0 ∧
    countE isEval (programB fin clk0 fuel) = 0 ∧
    countE isDump (programB fin clk0 fuel) = 0 ∧
    countE isOpen (programB fin clk0 fuel) = 1 ∧
    countE isClose (programB fin clk0 fuel) = 1 ∧
    (programB fin clk0 fuel).getLast? = some (Event.printTime 0) ∧
    (mainB fin clk0 fuel).2 = 0 := by
  have hr : runB fin clk0 fuel = initB clk0 := by
    unfold runB
    cases fuel with
    | zero => rfl
    | succ f =>
      unfold loopB
      rw [if_neg]
      intro hc
      have hc1 := hc.1
      have hz : (initB clk0).evals = 0 := rfl
      rw [hz, h] at hc1
      cases hc1
  have hp : programB fin clk0 fuel = setupEvents ++ [Event.close, Event.printTime 0] := by
    unfold programB
    rw [hr]
    rfl
  refine ⟨hr, hp, ?_, ?_, ?_, ?_, ?_, ?_, rfl⟩ <;> rw [hp] <;> rfl

/-- Witness for C10: a model whose flag is true from the start. -/
theorem claimC10_witness :
    ((fun _ : Nat => true) 0 = true) ∧
    (runB (fun _ : Nat => true) false 3 = initB false ∧
     programB (fun _ : Nat => true) false 3 = setupEvents ++ [Event.close, Event.printTime 0]) :=
  ⟨rfl,
    ⟨(claimC10_variantB_zero_iterations (fun _ : Nat => true) false 3 rfl).1,
     (claimC10_variantB_zero_iterations (fun _ : Nat => true) false 3 rfl).2.1⟩⟩

/-! ### Recorder lifecycle -/

/-- An event does not occur in a trace in which no event satisfies a
predicate it satisfies. -/
theorem not_mem_of_countE_zero {p : Event → Bool} {es : List Event} {a : Event}
    (h : countE p es = 0) (ha : p a = true) : a ∉ es := by
  intro hmem
  have hz := List.countP_eq_zero.mp h a hmem
  rw [ha] at hz
  exact hz rfl

/-- If the close event occurs exactly once and the trace decomposes as
`pre ++ close :: post` with no dump in `post`, then no split of the
trace at a close event has a dump after it. -/
theorem dump_free_after_close {es pre post : List Event}
    (hshape : es = pre ++ Event.close :: post)
    (hone : countE isClose es = 1)
    (hpost : countE isDump post = 0) :
    ∀ l1 l2, es = l1 ++ Event.close :: l2 → countE isDump l2 = 0 := by
  intro l1 l2 hsplit
  have heq : l1 ++ Event.close :: l2 = pre ++ Event.close :: post :=
    hsplit.symm.trans hshape
  have hone1 : (l1 ++ Event.close :: l2).countP isClose = 1 := by
    rw [hsplit] at hone
    exact hone
  have hone2 : (pre ++ Event.close :: post).countP isClose = 1 := by
    rw [hshape] at hone
    exact hone
  have hl1 := countP_split hone1 rfl
  have hpre := countP_split hone2 rfl
  have hnl1 : Event.close ∉ l1 := not_mem_of_countE_zero hl1.1 rfl
  have hnpre : Event.close ∉ pre := not_mem_of_countE_zero hpre.1 rfl
  obtain ⟨-, h2⟩ := split_eq_of_unique heq hnl1 hnpre
  rw [h2]
  exact hpost

/-- If the open event occurs exactly once and the trace decomposes as
`pre ++ openFile :: post` with no dump in `pre`, then no split of the
trace at an open event has a dump before it. -/
theorem dump_free_before_open {es pre post : List Event}
    (hshape : es = pre ++ Event.openFile :: post)
    (hone : countE isOpen es = 1)
    (hpre : countE isDump pre = 0) :
    ∀ l1 l2, es = l1 ++ Event.openFile :: l2 → countE isDump l1 = 0 := by
  intro l1 l2 hsplit
  have heq : l1 ++ Event.openFile :: l2 = pre ++ Event.openFile :: post :=
    hsplit.symm.trans hshape
  have hone1 : (l1 ++ Event.openFile :: l2).countP isOpen = 1 := by
    rw [hsplit] at hone
    exact hone
  have hone2 : (pre ++ Event.openFile :: post).countP isOpen = 1 := by
    rw [hshape] at hone
    exact hone
  have hl1 := countP_split hone1 rfl
  have hpre2 := countP_split hone2 rfl
  have hnl1 : Event.openFile ∉ l1 := not_mem_of_countE_zero hl1.1 rfl
  have hnpre : Event.openFile ∉ pre := not_mem_of_countE_zero hpre2.1 rfl
  obtain ⟨h1, -⟩ := split_eq_of_unique heq hnl1 hnpre
  rw [h1]
  exact hpre

/-- Claim C7: in every run of either variant that reaches normal
completion, the recorder is opened exactly once and closed exactly once,
every dump lies strictly between the open and the close (no dump before
the open, none after the close). -/
theorem claimC7_recorder_lifecycle :
    (∀ fin fuel es, programA fin fuel = some es →
      countE isOpen es = 1 ∧ countE isClose es = 1 ∧
      (∀ l1 l2, es = l1 ++ Event.close :: l2 → countE isDump l2 = 0) ∧
      (∀ l1 l2, es = l1 ++ Event.openFile :: l2 → countE isDump l1 = 0)) ∧
    (∀ fin clk0 fuel,
      countE isOpen (programB fin clk0 fuel) = 1 ∧
      countE isClose (programB fin clk0 fuel) = 1 ∧
      (∀ l1 l2, programB fin clk0 fuel = l1 ++ Event.close :: l2 →
        countE isDump l2 = 0) ∧
      (∀ l1 l2, programB fin clk0 fuel = l1 ++ Event.openFile :: l2 →
        countE isDump l1 = 0)) := by
  constructor
  · intro fin fuel es h
    obtain ⟨n, hes⟩ := programA_shape fin fuel es h
    have hopen : countE isOpen es = 1 := by
      rw [hes, countE_append, countE_append, countE_bodyA_open]
      have h1 : countE isOpen setupEvents = 1 := rfl
      have h2 : countE isOpen [Event.close, Event.printMsg, Event.printMsg] = 0 := rfl
      rw [h1, h2]
    have hclose : countE isClose es = 1 := by
      rw [hes, countE_append, countE_append, countE_bodyA_close]
      have h1 : countE isClose setupEvents = 0 := rfl
      have h2 : countE isClose [Event.close, Event.printMsg, Event.printMsg] = 1 := rfl
      rw [h1, h2]
    refine ⟨hopen, hclose, ?_, ?_⟩
    · exact @dump_free_after_close es (setupEvents ++ bodyA n)
        [Event.printMsg, Event.printMsg]
        (by rw [hes, List.append_assoc]) hclose rfl
    · exact @dump_free_before_open es
        [Event.cmdArgs, Event.construct, Event.traceOn, Event.bindTrace]
        (bodyA n ++ [Event.close, Event.printMsg, Event.printMsg])
        (by rw [hes]; rfl) hopen rfl
  · intro fin clk0 fuel
    have hes := programB_shape fin clk0 fuel
    have hopen : countE isOpen (programB fin clk0 fuel) = 1 := by
      rw [hes, countE_append, countE_append, countE_bodyB_open]
      have h1 : countE isOpen setupEvents = 1 := rfl
      have h2 : ∀ t, countE isOpen [Event.close, Event.printTime t] = 0 := fun _ => rfl
      rw [h1, h2]
    have hclose : countE isClose (programB fin clk0 fuel) = 1 := by
      rw [hes, countE_append, countE_append, countE_bodyB_close]
      have h1 : countE isClose setupEvents = 0 := rfl
      have h2 : ∀ t, countE isClose [Event.close, Event.printTime t] = 1 := fun _ => rfl
      rw [h1, h2]
    refine ⟨hopen, hclose, ?_, ?_⟩
    · exact @dump_free_after_close (programB fin clk0 fuel)
        (setupEvents ++ bodyB clk0 (runB fin clk0 fuel).evals)
        [Event.printTime (runB fin clk0 fuel).time]
        (by rw [hes, List.append_assoc]) hclose rfl
    · exact @dump_free_before_open (programB fin clk0 fuel)
        [Event.cmdArgs, Event.construct, Event.traceOn, Event.bindTrace]
        (bodyB clk0 (runB fin clk0 fuel).evals ++
          [Event.close, Event.printTime (runB fin clk0 fuel).time])
        (by rw [hes]; rfl) hopen rfl

/-- Witness for C7: the immediately finishing Variant A run, split at its
unique close event. -/
theorem claimC7_witness :
    programA (fun _ : Nat => true) 0 =
      some (setupEvents ++ [Event.close, Event.printMsg, Event.printMsg]) ∧
    (setupEvents ++ [Event.close, Event.printMsg, Event.printMsg] =
      setupEvents ++ Event.close :: [Event.printMsg, Event.printMsg]) ∧
    countE isDump [Event.printMsg, Event.printMsg] = 0 :=
  ⟨by decide, by decide,
    (claimC7_recorder_lifecycle.1 (fun _ : Nat => true) 0
        (setupEvents ++ [Event.close, Event.printMsg, Event.printMsg]) (by decide)).2.2.1
      setupEvents [Event.printMsg, Event.printMsg] (by decide)⟩

/-- Counterexample to claim C5: in both drivers the model instance is
constructed before `traceEverOn` is invoked, so the first trace-enable
event does not precede the first construction event in any run; shown
here on the concrete immediately-finishing run of each variant. -/
theorem claimC5_counterexample :
    programB (fun _ : Nat => true) false 0 =
      setupEvents ++ [Event.close, Event.printTime 0] ∧
    occursBefore isTraceOn isConstruct
      (setupEvents ++ [Event.close, Event.printTime 0]) = false ∧
    programA (fun _ : Nat => true) 0 =
      some (setupEvents ++ [Event.close, Event.printMsg, Event.printMsg]) ∧
    occursBefore isTraceOn isConstruct
      (setupEvents ++ [Event.close, Event.printMsg, Event.printMsg]) = false := by
  decide

/-- Claim C5 as amended: in every run of either variant the global
trace-enable switch is invoked after the model instance is constructed,
but before the recorder is bound to the model and before the waveform
file is opened. -/
theorem claimC5_amended_trace_enable_order :
    (∀ fin fuel es, programA fin fuel = some es →
      occursBefore isConstruct isTraceOn es = true ∧
      occursBefore isTraceOn isBind es = true ∧
      occursBefore isTraceOn isOpen es = true) ∧
    (∀ fin clk0 fuel,
      occursBefore isConstruct isTraceOn (programB fin clk0 fuel) = true ∧
      occursBefore isTraceOn isBind (programB fin clk0 fuel) = true ∧
      occursBefore isTraceOn isOpen (programB fin clk0 fuel) = true) := by
  constructor
  · intro fin fuel es h
    obtain ⟨n, hes⟩ := programA_shape fin fuel es h
    rw [hes]
    exact ⟨occursBefore_append _ _ setupEvents _ 1 2 rfl rfl (by omega),
      occursBefore_append _ _ setupEvents _ 2 3 rfl rfl (by omega),
      occursBefore_append _ _ setupEvents _ 2 4 rfl rfl (by omega)⟩
  · intro fin clk0 fuel
    rw [programB_shape fin clk0 fuel, List.append_assoc]
    exact ⟨occursBefore_append _ _ setupEvents _ 1 2 rfl rfl (by omega),
      occursBefore_append _ _ setupEvents _ 2 3 rfl rfl (by omega),
      occursBefore_append _ _ setupEvents _ 2 4 rfl rfl (by omega)⟩

/-- Witness for the amended C5: the immediately finishing Variant A
run. -/
theorem claimC5_witness :
    programA (fun _ : Nat => true) 0 =
      some (setupEvents ++ [Event.close, Event.printMsg, Event.printMsg]) ∧
    occursBefore isConstruct isTraceOn
      (setupEvents ++ [Event.close, Event.printMsg, Event.printMsg]) = true :=
  ⟨by decide,
    (claimC5_amended_trace_enable_order.1 (fun _ : Nat => true) 0
        (setupEvents ++ [Event.close, Event.printMsg, Event.printMsg]) (by decide)).1⟩

/-- Claim C8: the drivers are deterministic — two runs of either variant
with the same model behavior (the same finish-flag answers and the same
initial clock value) and the same fuel produce identical event traces,
and in particular identical dump-request sequences. -/
theorem claimC8_driver_deterministic
    (fin1 fin2 : Nat → Bool) (clk01 clk02 : Bool) (fuel : Nat)
    (hfin : ∀ k, fin1 k = fin2 k) (hclk : clk01 = clk02) :
    programA fin1 fuel = programA fin2 fuel ∧
    programB fin1 clk01 fuel = programB fin2 clk02 fuel ∧
    dumpTimes (programB fin1 clk01 fuel) = dumpTimes (programB fin2 clk02 fuel) := by
  have hf : fin1 = fin2 := funext hfin
  subst hf
  subst hclk
  exact ⟨rfl, rfl, rfl⟩

/-- Witness for C8: two textually distinct but pointwise equal models. -/
theorem claimC8_witness :
    (∀ k, (fun j : Nat => decide (1 ≤ j)) k = (fun j : Nat => decide (0 < j)) k) ∧
    programB (fun j : Nat => decide (1 ≤ j)) false 9 =
      programB (fun j : Nat => decide (0 < j)) false 9 :=
  ⟨fun _ => rfl,
    (claimC8_driver_deterministic (fun j : Nat => decide (1 ≤ j))
        (fun j : Nat => decide (0 < j)) false false 9 (fun _ => rfl) rfl).2.1⟩
